import Mathlib

/-!
A shallow embedding of the shipnotes release-notes core (`src/index.ts`,
third/canonical revision): the git-log parser, the revert reconciler, the
two section classifiers and the markdown assemblers, together with proved
properties of the pipeline.  All definitions are executable translations of
the TypeScript source; regular expressions are translated into explicit
character scanners for exactly the pattern shapes the source builds.
-/

namespace Shipnotes

/-- The JS whitespace class (`\s`, and `String.prototype.trim`), restricted to
the ASCII code points the pipeline meets. -/
def isJsSpace (c : Char) : Bool :=
  c = ' ' || c = '\t' || c = '\n' || c = '\r' || c = '\x0b' || c = '\x0c'

/-- The separator class `[_\-:\s#]` standing between a reference label and its
ticket token in the source's reference regexes. -/
def isSepChar (c : Char) : Bool :=
  c = '_' || c = '-' || c = ':' || c = '#' || isJsSpace c

/-- JS word characters `\w`, i.e. `[A-Za-z0-9_]`. -/
def isWordChar (c : Char) : Bool :=
  c.isAlpha || c.isDigit || c = '_'

/-- Characters allowed in a ticket token, the class `[\w-]`. -/
def isTicketChar (c : Char) : Bool :=
  isWordChar c || c = '-'

/-- Case-insensitive character comparison (the JS `i` flag, ASCII). -/
def charIEq (a b : Char) : Bool :=
  a.toLower = b.toLower

/-- Case-insensitive "starts with", matching the literal part of a pattern. -/
def startsWithI : List Char → List Char → Bool
  | [], _ => true
  | _ :: _, [] => false
  | p :: ps, t :: ts => charIEq p t && startsWithI ps ts

/-- Case-sensitive "starts with", used for the block sentinel. -/
def leadsWith : List Char → List Char → Bool
  | [], _ => true
  | _ :: _, [] => false
  | p :: ps, t :: ts => p = t && leadsWith ps ts

/-- Case-insensitive substring test: an unanchored literal pattern under the
`i` flag matches a text iff it matches at some position. -/
def containsI (pat : List Char) : List Char → Bool
  | [] => startsWithI pat []
  | c :: rest => startsWithI pat (c :: rest) || containsI pat rest

/-- JS `trim` over character lists. -/
def jsTrimL (s : List Char) : List Char :=
  ((s.dropWhile isJsSpace).reverse.dropWhile isJsSpace).reverse

/-- JS `trim` on strings. -/
def jsTrim (s : String) : String :=
  ⟨jsTrimL s.data⟩

/-- One attempt of the reference regex `label[_\-:\s#]+([\w-]*\d[\w-]*)` at the
head of `text`: the label matched case-insensitively, then a nonempty run of
separator characters, then a token of word characters and hyphens that contains
at least one digit.  Consuming the separator run greedily is equivalent to the
regex with backtracking: handing separator characters back to the capture can
only prepend the non-digit characters `_` or `-` to the token, or block the
capture entirely on `:`, `#` or whitespace, so it never turns a failure into a
success.  Returns the captured ticket together with the total number of
characters consumed by the match. -/
def matchRefAt (label text : List Char) : Option (List Char × Nat) :=
  if startsWithI label text then
    let afterLabel := text.drop label.length
    let seps := afterLabel.takeWhile isSepChar
    if seps.isEmpty then none
    else
      let run := (afterLabel.drop seps.length).takeWhile isTicketChar
      if run.any Char.isDigit then some (run, label.length + seps.length + run.length)
      else none
  else none

/-- The alternation `(?:US|BUG)` heading the revert reconciler's ticket regex.
The two labels differ at their first character, so at any one position at most
one branch can match and ordered choice is faithful to the regex. -/
def matchTicketAlt (text : List Char) : Option (List Char × Nat) :=
  match matchRefAt ['U', 'S'] text with
  | some r => some r
  | none => matchRefAt ['B', 'U', 'G'] text

/-- Global (`g` flag) scanning: attempt a match at every position from left to
right, resuming right after the end of each successful match (`lastIndex`
semantics).  The `skip` counter walks across the remainder of the previous
match; both matchers above always consume at least one character. -/
def scanAux (m : List Char → Option (List Char × Nat)) :
    List Char → Nat → List (List Char)
  | [], _ => []
  | _ :: rest, Nat.succ k => scanAux m rest k
  | c :: rest, 0 =>
    match m (c :: rest) with
    | some (r, n) => r :: scanAux m rest (n - 1)
    | none => scanAux m rest 0

/-- All captures of a global regex over `text`. -/
def scanWith (m : List Char → Option (List Char × Nat)) (text : List Char) :
    List (List Char) :=
  scanAux m text 0

/-- All tickets extracted for a reference label from a text, in match order
(`String.prototype.matchAll` with the `gi` flags). -/
def scanRefs (label text : String) : List String :=
  (scanWith (matchRefAt label.data) text.data).map fun l => ⟨l⟩

/-- `new RegExp(label + "[_\\-:\\s#]+([\\w\\-]*\\d[\\w\\-]*)", "i").test text`:
true iff the reference regex matches somewhere in the text. -/
def refTest (label text : String) : Bool :=
  !(scanWith (matchRefAt label.data) text.data).isEmpty

example : scanRefs "US" "feat: x US-123 also US_9" = ["123", "9"] := by decide
example : scanRefs "US" "FOCUS-123" = ["123"] := by decide
example : scanRefs "US" "US123" = [] := by decide
example : scanRefs "US" "us: 77 trailing" = ["77"] := by decide
example : refTest "US" "nothing here" = false := by decide

/-- A commit record, as produced by `parseGitLog`. -/
structure Commit where
  hash : String
  message : String
  author_name : String
  author_email : String
  date : String
  body : String
deriving DecidableEq, Repr

/-- A section rule (`SectionMapping` in the source); `section` is renamed to
`sectionName` because `section` is a Lean keyword. -/
structure SectionMapping where
  sectionName : String
  pattern : String
  label : String
deriving DecidableEq, Repr

/-- The text the reference scanners run over: `commit.message + "\n" + commit.body`. -/
def searchText (c : Commit) : String :=
  c.message ++ "\n" ++ c.body

/-- All ticket numbers the reconciler's regex
`/(?:US|BUG)[_:\s#-]+([\w-]*\d[\w-]*)/gi` finds in a commit's message+body. -/
def commitTickets (c : Commit) : List String :=
  (scanWith matchTicketAlt (searchText c).data).map fun l => ⟨l⟩

/-- `/^revert/i.test(commit.message)`: the commit is a revert marker. -/
def isRevert (c : Commit) : Bool :=
  startsWithI "revert".data c.message.data

/-- The reconciler's ticket index as a flat list of (ticketNumber, position)
records: commits are scanned in chronological order and every regex match
appends the commit's position under the captured ticket number. -/
def ticketIndexEntries (cs : List Commit) : List (String × Nat) :=
  cs.enum.flatMap fun p => (commitTickets p.2).map fun t => (t, p.1)

/-- `ticketCommits.get(t)`: the positions recorded under ticket number `t`, in
insertion (i.e. chronological) order. -/
def ticketIndex (cs : List Commit) (t : String) : List Nat :=
  (ticketIndexEntries cs).filterMap fun e => if e.1 = t then some e.2 else none

/-- The hashes of all revert-marker commits. -/
def revertCommitHashes (cs : List Commit) : List String :=
  (cs.filter isRevert).map Commit.hash

/-- `commitsToRemove`: for every revert marker at position `j`, for every
ticket number it carries, the hash of every indexed commit at a position `< j`
carrying the same ticket number. -/
def commitsToRemove (cs : List Commit) : List String :=
  cs.enum.flatMap fun p =>
    if isRevert p.2 then
      (commitTickets p.2).flatMap fun t =>
        ((ticketIndex cs t).filter (· < p.1)).filterMap fun i =>
          (cs[i]?).map Commit.hash
    else []

/-- The revert reconciler: drop every revert marker and every commit marked
for removal, preserving the order of the survivors. -/
def filterRevertedCommits (cs : List Commit) : List Commit :=
  cs.filter fun c =>
    !(revertCommitHashes cs).contains c.hash && !(commitsToRemove cs).contains c.hash

section RevertExamples

/-- Shorthand for building example commits. -/
def mkCommit (h m b : String) : Commit :=
  { hash := h, message := m, author_name := "A", author_email := "a@x", date := "2024-01-01", body := b }

example : commitTickets (mkCommit "a" "feat: one" "US-7") = ["7"] := by decide
example : isRevert (mkCommit "r" "Revert one" "US-7") = true := by decide
example :
    filterRevertedCommits
      [mkCommit "a" "feat: one" "US-7", mkCommit "r" "Revert one" "US-7",
       mkCommit "b" "feat: redo" "US-7"] =
      [mkCommit "b" "feat: redo" "US-7"] := by decide
example :
    filterRevertedCommits
      [mkCommit "a" "feat: one" "US-5", mkCommit "r" "Revert one" "BUG-5"] = [] := by
  decide

end RevertExamples

/-! ## The log parser -/

/-- The block sentinel `"---END---\n"` that `parseGitLog` splits on. -/
def sentinel : List Char :=
  "---END---\n".data

/-- Leftmost-occurrence, non-overlapping splitting on a separator sequence,
the semantics of `String.prototype.split` for a nonempty separator string.
The `skip` counter consumes the remainder of a separator occurrence. -/
def splitAux (sep : List Char) : List Char → Nat → List (List Char)
  | [], _ => [[]]
  | _ :: rest, Nat.succ k => splitAux sep rest k
  | c :: rest, 0 =>
    if leadsWith sep (c :: rest) && !sep.isEmpty then
      [] :: splitAux sep rest (sep.length - 1)
    else
      match splitAux sep rest 0 with
      | [] => [[c]]
      | p :: ps => (c :: p) :: ps

/-- `text.split(sep)` for a nonempty separator. -/
def splitOnSep (sep text : List Char) : List (List Char) :=
  splitAux sep text 0

/-- Does `sep` occur as a contiguous subsequence of `text`? -/
def hasOcc (sep : List Char) : List Char → Bool
  | [] => leadsWith sep []
  | c :: rest => leadsWith sep (c :: rest) || hasOcc sep rest

example : splitOnSep "--".data "a--b--".data = ["a".data, "b".data, []] := by decide
example : splitOnSep "\n".data "a\nb".data = ["a".data, "b".data] := by decide

/-- `Array.prototype.join(sep)`: the pieces interleaved with the separator. -/
def joinSep (sep : List Char) : List (List Char) → List Char
  | [] => []
  | [x] => x
  | x :: xs => x ++ sep ++ joinSep sep xs

/-- Parse one sentinel-delimited block: split into lines, skip the block when
it has fewer than 5 lines, otherwise read the five fixed header fields and
join + trim the remaining lines into the body. -/
def parseBlock (block : List Char) : Option Commit :=
  let lines := splitOnSep ['\n'] block
  if lines.length < 5 then none
  else some
    { hash := ⟨lines.getD 0 []⟩
      message := ⟨lines.getD 1 []⟩
      author_name := ⟨lines.getD 2 []⟩
      author_email := ⟨lines.getD 3 []⟩
      date := ⟨lines.getD 4 []⟩
      body := ⟨jsTrimL (joinSep ['\n'] (lines.drop 5))⟩ }

/-- `parseGitLog`: split the raw text on the sentinel, keep the blocks that are
nonempty after trimming, and parse each block, silently skipping the short
ones. -/
def parseGitLog (output : String) : List Commit :=
  ((splitOnSep sentinel output.data).filter fun b => !(jsTrimL b).isEmpty).filterMap
    parseBlock

/-- The text `git log --format=%H%n%s%n%an%n%ae%n%aI%n%b` emits for one commit
(each entry is terminated by a newline before the sentinel). -/
def renderBlock (c : Commit) : String :=
  c.hash ++ "\n" ++ c.message ++ "\n" ++ c.author_name ++ "\n" ++ c.author_email ++
    "\n" ++ c.date ++ "\n" ++ c.body ++ "\n"

/-- A synthetic git-log stream: the commits' blocks joined with the sentinel. -/
def renderLog : List Commit → String
  | [] => ""
  | c :: cs => renderBlock c ++ "---END---\n" ++ renderLog cs

/-- Well-formedness of a synthetic commit for the parser round trip: the five
header fields are single lines, the rendered block does not contain the
sentinel, and the identifier has some non-whitespace content (so the block
survives the parser's emptiness filter). -/
def WellFormedCommit (c : Commit) : Prop :=
  ('\n' ∉ c.hash.data ∧ '\n' ∉ c.message.data ∧ '\n' ∉ c.author_name.data ∧
      '\n' ∉ c.author_email.data ∧ '\n' ∉ c.date.data) ∧
    hasOcc sentinel (renderBlock c).data = false ∧
    ∃ ch ∈ c.hash.data, isJsSpace ch = false

instance (c : Commit) : Decidable (WellFormedCommit c) := by
  unfold WellFormedCommit; infer_instance

example :
    parseGitLog (renderLog [mkCommit "a1" "feat: one" "US-7", mkCommit "b2" "fix: two" ""]) =
      [mkCommit "a1" "feat: one" "US-7", mkCommit "b2" "fix: two" ""] := by decide

example : parseGitLog "short\nblock\n---END---\n" = [] := by decide

/-! ## Prefix-mode classification and markdown -/

/-- JS truthiness of an optional string: present and nonempty. -/
def optTruthy : Option String → Bool
  | some s => !s.isEmpty
  | none => false

/-- `new RegExp(pattern, "i").test(message)` for the pattern shapes
`generateMarkdown` builds: an anchored literal (`^feat`, `^fix`) tests the
start of the message, an unanchored literal tests for a substring; the
catch-all `.*` is special-cased by string comparison before any regex is
constructed, mirroring the source. -/
def patternTest (pattern message : String) : Bool :=
  match pattern.data with
  | '^' :: rest => startsWithI rest message.data
  | p => containsI p message.data

/-- The first non-catch-all rule whose pattern matches the message (the inner
matching loop with its `continue` on `.*` and `break` on success). -/
def firstMatchSection (sections : List SectionMapping) (message : String) :
    Option SectionMapping :=
  sections.find? fun m => m.pattern ≠ ".*" ∧ patternTest m.pattern message

/-- The `matchedCommits` hash set after the matching loop. -/
def matchedHashes (sections : List SectionMapping) (commits : List Commit) :
    List String :=
  commits.filterMap fun c =>
    if (firstMatchSection sections c.message).isSome then some c.hash else none

/-- The final content of `groupedCommits.get(name)`: the commits whose first
matching rule carries that section name, in commit order, followed — when a
catch-all rule exists and carries that name — by the commits whose hash was
never matched. -/
def groupedCommitsGet (sections : List SectionMapping) (commits : List Commit)
    (name : String) : List Commit :=
  (commits.filter fun c =>
      (firstMatchSection sections c.message).map SectionMapping.sectionName = some name) ++
    match sections.find? fun s => s.pattern = ".*" with
    | some ca =>
      if ca.sectionName = name then
        commits.filter fun c => !(matchedHashes sections commits).contains c.hash
      else []
    | none => []

/-- Basic mode always classifies with these three rules. -/
def conventionalSections : List SectionMapping :=
  [{ sectionName := "Features", pattern := "^feat", label := "" },
   { sectionName := "Bug Fixes", pattern := "^fix", label := "" },
   { sectionName := "Other Changes", pattern := ".*", label := "" }]

/-- The conventional-commit shape regex
`/^(\w+)(?:\(([^)]+)\))?:\s*(.*)$/` (no `m` flag, so `.` excludes newlines and
`$` is the end of the string): returns the type word, the optional scope and
the text after the colon and following whitespace.  The optional scope group
fails as a whole when no `)` follows, and the regex then requires the colon
directly after the type word. -/
def conventionalParse (msg : List Char) :
    Option (List Char × Option (List Char) × List Char) :=
  let w := msg.takeWhile isWordChar
  if w.isEmpty then none
  else
    match msg.drop w.length with
    | '(' :: r2 =>
      let inner := r2.takeWhile fun c => c ≠ ')'
      if inner.isEmpty then none
      else
        match r2.drop inner.length with
        | ')' :: ':' :: r3 =>
          let rest := r3.dropWhile isJsSpace
          if rest.contains '\n' then none else some (w, some inner, rest)
        | _ => none
    | ':' :: r3 =>
      let rest := r3.dropWhile isJsSpace
      if rest.contains '\n' then none else some (w, none, rest)
    | _ => none

/-- The scope bucket of a commit message: the captured scope, or `"Other"`. -/
def scopeOf (msg : String) : String :=
  match conventionalParse msg.data with
  | some (_, some s, _) => ⟨s⟩
  | _ => "Other"

/-- The rendered line text: the message with its `type:` / `type(scope):`
leader stripped; an empty remainder is falsy in JS, so the full message is kept
in that case. -/
def cleanMessage (msg : String) : String :=
  match conventionalParse msg.data with
  | some (_, _, rest) => if rest.isEmpty then msg else ⟨rest⟩
  | none => msg

/-- The scope keys of `byScope` in insertion (first-appearance) order. -/
def firstAppearanceKeys (ks : List String) : List String :=
  ks.foldl (fun acc k => if k ∈ acc then acc else acc ++ [k]) []

/-- The scope comparator: `"Other"` sorts last, the rest ascending.  The
source's `localeCompare` is modelled by the standard lexicographic order on
strings. -/
def scopeLE (a b : String) : Bool :=
  if a = "Other" then b = "Other"
  else if b = "Other" then true
  else a ≤ b

/-- The sorted scope keys of a section's commits. -/
def sortedScopes (sc : List Commit) : List String :=
  (firstAppearanceKeys (sc.map fun c => scopeOf c.message)).mergeSort scopeLE

/-- The shared title computation of both markdown generators. -/
def releaseTitle (fromRef : Option String) (toRef : String) (isLastTag : Bool) :
    String :=
  if toRef ≠ "" ∧ toRef ≠ "HEAD" then
    if optTruthy fromRef ∧ isLastTag = false then
      "RELEASE NOTES " ++ fromRef.getD "" ++ " → " ++ toRef
    else "RELEASE NOTES " ++ toRef
  else "RELEASE NOTES"

/-- `generateMarkdown` (basic mode): the date the source reads from the wall
clock (`new Date().toISOString().split('T')[0]`) is the explicit `today`
argument of the embedding. -/
def generateMarkdown (today : String) (commits : List Commit)
    (fromRef : Option String) (toRef : String) (isLastTag : Bool) : String :=
  let header :=
    "# " ++ releaseTitle fromRef toRef isLastTag ++ "\n\nGenerated: " ++ today ++ "\n\n"
  let body := String.join (conventionalSections.map fun m =>
    let sc := groupedCommitsGet conventionalSections commits m.sectionName
    if sc.isEmpty then ""
    else
      "## " ++ m.sectionName ++ "\n\n" ++
        String.join ((sortedScopes sc).map fun scope =>
          "### " ++ scope ++ "\n\n" ++
            String.join ((sc.filter fun c => scopeOf c.message = scope).map fun c =>
              "- " ++ cleanMessage c.message ++ "\n") ++ "\n"))
  let total := (conventionalSections.map fun m =>
    (groupedCommitsGet conventionalSections commits m.sectionName).length).sum
  header ++ body ++ "---\n\n**Total:** " ++ toString total ++ " item(s)\n"

/-! ## Reference-mode classification and markdown -/

/-- The markdown special characters escaped by `escapeMarkdown`. -/
def isMdSpecial (c : Char) : Bool :=
  c = '\\' || c = Char.ofNat 96 || c = '*' || c = '_' || c = Char.ofNat 123 ||
    c = Char.ofNat 125 || c = '[' || c = ']' || c = '(' || c = ')' || c = '#' ||
    c = '+' || c = '-' || c = '.' || c = '!' || c = '|'

/-- `escapeMarkdown`: backslash-escape every markdown special character. -/
def escapeMarkdown (s : String) : String :=
  ⟨s.data.flatMap fun c => if isMdSpecial c then ['\\', c] else [c]⟩

/-- `formatCommitWithLink` (reference mode): one rendered line per ticket the
rule's label finds in the commit's message+body; commits with no ticket
produce no output at all. -/
def formatCommitWithLink (c : Commit) (refType label : String)
    (baseUrl : Option String) : String :=
  let ms := scanRefs refType (searchText c)
  if ms.isEmpty then ""
  else
    String.join (ms.map fun t =>
      if optTruthy baseUrl then
        "- [" ++ escapeMarkdown label ++ " " ++ escapeMarkdown t ++ "](" ++
          baseUrl.getD "" ++ "/" ++ t ++ ")\n"
      else "- " ++ label ++ " " ++ t ++ "\n")

/-- The default rules of reference mode. -/
def defaultRefSections : List SectionMapping :=
  [{ sectionName := "User Stories", pattern := "US", label := "US" },
   { sectionName := "Bugs", pattern := "BUG", label := "BUG" }]

/-- The final content of reference mode's `groupedCommits.get(name)`: the
matching loop does not break, so a commit is pushed once for every rule with
that section name whose reference pattern tests true on message+body. -/
def refSectionCommits (sections : List SectionMapping) (commits : List Commit)
    (name : String) : List Commit :=
  commits.flatMap fun c =>
    (sections.filter fun m => m.sectionName = name).filterMap fun m =>
      if refTest m.pattern (searchText c) then some c else none

/-- `generateReleaseNotesMarkdown` (reference mode). -/
def generateReleaseNotesMarkdown (today : String) (commits : List Commit)
    (fromRef : Option String) (toRef : String) (baseUrl : Option String)
    (sections : Option (List SectionMapping)) (isLastTag : Bool) : String :=
  let header :=
    "# " ++ releaseTitle fromRef toRef isLastTag ++ "\n\nGenerated: " ++ today ++ "\n\n"
  let activeSections := sections.getD defaultRefSections
  let body := String.join (activeSections.map fun m =>
    let sc := refSectionCommits activeSections commits m.sectionName
    if sc.isEmpty then ""
    else
      "## " ++ m.sectionName ++ "\n\n" ++
        String.join (sc.map fun c => formatCommitWithLink c m.pattern m.label baseUrl) ++
        "\n")
  let total := (activeSections.map fun m =>
    (refSectionCommits activeSections commits m.sectionName).length).sum
  header ++ body ++ "---\n\n**Total:** " ++ toString total ++ " item(s)\n"

/-! ## The pipeline -/

/-- The option record the core receives; `to` and `fromRef` arrive already
resolved by the external git collaborator (tag detection is I/O and outside
the core). -/
structure CoreOptions where
  releaseNotes : Bool := false
  fromRef : Option String := none
  toRef : String := "HEAD"
  baseUrl : Option String := none
  sections : Option (List SectionMapping) := none
  last : Bool := false
deriving Repr

/-- `generateReleaseNotes` from the git-log text on: the two empty-input
checks, parsing, revert reconciliation and markdown generation.  Writing the
file is external I/O; `today` is the date the source reads from the wall clock
inside the markdown generators. -/
def generateReleaseNotesCore (stdout : String) (opts : CoreOptions)
    (today : String) : Except String String :=
  if jsTrim stdout = "" then Except.error "No commits found"
  else
    let commits := parseGitLog stdout
    if commits.isEmpty then Except.error "No commits found"
    else
      let filtered := filterRevertedCommits commits
      if opts.releaseNotes then
        Except.ok (generateReleaseNotesMarkdown today filtered opts.fromRef opts.toRef
          opts.baseUrl opts.sections opts.last)
      else
        Except.ok (generateMarkdown today filtered opts.fromRef opts.toRef opts.last)

/-! ## A claim-side model of the reconciler's index

The claim about the reconciler's index describes a `(label, ticketId)`-keyed
structure driven by the configured rule set.  The following definitions state
that reading of the claim, to be compared against the code's `ticketIndex`. -/

/-- The labels the claimed index construction would scan: every pattern of the
configured rule set, or the fixed built-in pair when none is configured. -/
def claimLabels : Option (List SectionMapping) → List String
  | some rules => rules.map SectionMapping.pattern
  | none => ["US", "BUG"]

/-- Definition following the claim's words rather than the source: an index
keyed by the pair (label, ticketId), recording the chronologically ordered
positions of the commits carrying that reference, scanning message+body with
every configured (or default) label. -/
def refIndexClaim (rules : Option (List SectionMapping)) (cs : List Commit)
    (label ticket : String) : List Nat :=
  if label ∈ claimLabels rules then
    cs.enum.filterMap fun p =>
      if ticket ∈ scanRefs label (searchText p.2) then some p.1 else none
  else []

example : scopeOf "feat(api): add auth" = "api" := by decide
example : cleanMessage "feat(api): add auth" = "add auth" := by decide
example : scopeOf "chore: misc" = "Other" := by decide
example :
    groupedCommitsGet conventionalSections
      [mkCommit "a" "feat: one" "", mkCommit "b" "docs: two" ""] "Other Changes" =
      [mkCommit "b" "docs: two" ""] := by decide
example :
    refSectionCommits defaultRefSections [mkCommit "a" "feat: x" "US: 10\nBUG: 20"]
      "Bugs" = [mkCommit "a" "feat: x" "US: 10\nBUG: 20"] := by decide

/-! ## Character-class lemmas -/

theorem char_toNat_inj {a b : Char} (h : a.toNat = b.toNat) : a = b :=
  Char.ext (UInt32.ext h)

theorem char_toNat_ofNat {n : Nat} (h : n.isValidChar) : (Char.ofNat n).toNat = n := by
  unfold Char.ofNat
  rw [dif_pos h]
  rfl

theorem toLower_toNat (c : Char) :
    c.toLower.toNat = if 65 ≤ c.toNat ∧ c.toNat ≤ 90 then c.toNat + 32 else c.toNat := by
  unfold Char.toLower
  split
  · next h =>
    rw [if_pos (by omega)]
    exact char_toNat_ofNat (Or.inl (by omega))
  · next h =>
    rw [if_neg (by omega)]

theorem uint32_le_iff (a b : UInt32) : a ≤ b ↔ a.toNat ≤ b.toNat := Iff.rfl

theorem isAlpha_iff_toNat (c : Char) :
    c.isAlpha = true ↔ (65 ≤ c.toNat ∧ c.toNat ≤ 90) ∨ (97 ≤ c.toNat ∧ c.toNat ≤ 122) := by
  simp only [Char.isAlpha, Char.isUpper, Char.isLower, Bool.or_eq_true, Bool.and_eq_true,
    decide_eq_true_eq]
  have h65 : ((65 : UInt32)).toNat = 65 := rfl
  have h90 : ((90 : UInt32)).toNat = 90 := rfl
  have h97 : ((97 : UInt32)).toNat = 97 := rfl
  have h122 : ((122 : UInt32)).toNat = 122 := rfl
  constructor
  · rintro (⟨h1, h2⟩ | ⟨h1, h2⟩)
    · exact Or.inl ⟨by simpa [uint32_le_iff, h65] using h1, by simpa [uint32_le_iff, h90] using h2⟩
    · exact Or.inr ⟨by simpa [uint32_le_iff, h97] using h1, by simpa [uint32_le_iff, h122] using h2⟩
  · rintro (⟨h1, h2⟩ | ⟨h1, h2⟩)
    · exact Or.inl ⟨by simpa [uint32_le_iff, h65] using h1, by simpa [uint32_le_iff, h90] using h2⟩
    · exact Or.inr ⟨by simpa [uint32_le_iff, h97] using h1, by simpa [uint32_le_iff, h122] using h2⟩

theorem isAlpha_toLower (c : Char) : c.toLower.isAlpha = c.isAlpha := by
  by_cases h : 65 ≤ c.toNat ∧ c.toNat ≤ 90
  · have hl : c.toLower.toNat = c.toNat + 32 := by rw [toLower_toNat, if_pos h]
    have h1 : c.toLower.isAlpha = true := by rw [isAlpha_iff_toNat]; omega
    have h2 : c.isAlpha = true := by rw [isAlpha_iff_toNat]; omega
    rw [h1, h2]
  · have heq : c.toLower = c := char_toNat_inj (by rw [toLower_toNat, if_neg h])
    rw [heq]

theorem charIEq_alpha_not_alpha {a b : Char} (ha : a.isAlpha = true)
    (hb : b.isAlpha = false) : charIEq a b = false := by
  simp only [charIEq, decide_eq_false_iff_not]
  intro h
  have hba : b.toLower.isAlpha = true := by rw [← h, isAlpha_toLower a, ha]
  rw [isAlpha_toLower b, hb] at hba
  cases hba

/-! ## Lemmas about the matchers and the scanner -/

theorem startsWithI_length {p t : List Char} (h : startsWithI p t = true) :
    p.length ≤ t.length := by
  induction p generalizing t with
  | nil => simp
  | cons c p ih =>
    cases t with
    | nil => simp [startsWithI] at h
    | cons d t =>
      simp only [startsWithI, Bool.and_eq_true] at h
      simpa [List.length_cons] using ih h.2

theorem startsWithI_getElem? {p t : List Char} (h : startsWithI p t = true) :
    ∀ i, i < p.length → ∃ a b, p[i]? = some a ∧ t[i]? = some b ∧ charIEq a b = true := by
  induction p generalizing t with
  | nil => intro i hi; simp at hi
  | cons c p ih =>
    cases t with
    | nil => simp [startsWithI] at h
    | cons d t =>
      simp only [startsWithI, Bool.and_eq_true] at h
      intro i hi
      cases i with
      | zero => exact ⟨c, d, by simp, by simp, h.1⟩
      | succ i =>
        obtain ⟨a, b, ha, hb, hab⟩ := ih h.2 i (by simpa using hi)
        exact ⟨a, b, by simpa using ha, by simpa using hb, hab⟩

theorem startsWithI_append_self (L r : List Char) : startsWithI L (L ++ r) = true := by
  induction L with
  | nil => rfl
  | cons c L ih => simp [startsWithI, charIEq, ih]

theorem matchRefAt_none_of_not_starts {label text : List Char}
    (h : startsWithI label text = false) : matchRefAt label text = none := by
  simp [matchRefAt, h]

theorem matchRefAt_none_of_no_sep {label text : List Char}
    (he : (text.drop label.length).takeWhile isSepChar = []) :
    matchRefAt label text = none := by
  unfold matchRefAt
  split
  · simp [he]
  · rfl

theorem matchRefAt_sep_consumed {label text r : List Char} {n : Nat}
    (h : matchRefAt label text = some (r, n)) : label.length + r.length < n := by
  unfold matchRefAt at h
  split at h
  · simp only at h
    split at h
    · cases h
    · next hne =>
      split at h
      · injection h with h'
        injection h' with h1 h2
        subst h1
        have : (List.takeWhile isSepChar (text.drop label.length)).length ≠ 0 := by
          simpa [List.isEmpty_iff, List.length_eq_zero] using hne
        omega
      · cases h
  · cases h

theorem scanAux_skip (m : List Char → Option (List Char × Nat)) :
    ∀ (t : List Char) (k : Nat), scanAux m t k = scanAux m (t.drop k) 0 := by
  intro t
  induction t with
  | nil => intro k; simp [scanAux]
  | cons c rest ih =>
    intro k
    cases k with
    | zero => rfl
    | succ k => simpa [scanAux] using ih k

theorem scanAux_ne_nil_of_match {m : List Char → Option (List Char × Nat)}
    (hm : m [] = none) :
    ∀ (t : List Char) (p : Nat), (m (t.drop p)).isSome = true → scanAux m t 0 ≠ [] := by
  intro t
  induction t with
  | nil =>
    intro p h
    rw [List.drop_nil, hm] at h
    cases h
  | cons c rest ih =>
    intro p h
    cases hmc : m (c :: rest) with
    | some r =>
      obtain ⟨r1, n⟩ := r
      simp [scanAux, hmc]
    | none =>
      cases p with
      | zero =>
        rw [List.drop_zero, hmc] at h
        cases h
      | succ p =>
        have := ih p (by simpa using h)
        simpa [scanAux, hmc] using this

theorem scanAux_nil_of_no_match {m : List Char → Option (List Char × Nat)} :
    ∀ (t : List Char), (∀ p, m (t.drop p) = none) → scanAux m t 0 = [] := by
  intro t
  induction t with
  | nil => intro _; rfl
  | cons c rest ih =>
    intro h
    have h0 : m (c :: rest) = none := by simpa using h 0
    have : scanAux m rest 0 = [] := ih fun p => by simpa using h (p + 1)
    simpa [scanAux, h0] using this

theorem matchRefAt_nil (label : List Char) : matchRefAt label [] = none := by
  unfold matchRefAt
  split
  · simp
  · rfl

theorem refTest_append (label s₁ tail : String)
    (h : (matchRefAt label.data tail.data).isSome = true) :
    refTest label (s₁ ++ tail) = true := by
  have hdata : (s₁ ++ tail).data = s₁.data ++ tail.data := rfl
  have key : scanAux (matchRefAt label.data) (s₁.data ++ tail.data) 0 ≠ [] := by
    apply scanAux_ne_nil_of_match (matchRefAt_nil label.data) _ s₁.data.length
    rw [List.drop_left]
    exact h
  simp only [refTest, scanWith, hdata, Bool.not_eq_true']
  simpa [List.isEmpty_iff] using key

/-- C2: the claim asserts that a rule with reference label `US` never matches
where `US` is a substring of a larger alphabetic word, and in particular that
`FOCUS-123` produces no match and no section entry.  The source's reference
regex has no word-boundary assertion, so the `US` inside `FOCUS-123` does
match, the commit is grouped under the rule's section, and rendering extracts
ticket `123`: the claim is false on the code. -/
theorem focus_matches_us_rule :
    refTest "US" (searchText (mkCommit "f2" "FOCUS-123" "")) = true ∧
    refSectionCommits defaultRefSections [mkCommit "f2" "FOCUS-123" ""] "User Stories" =
      [mkCommit "f2" "FOCUS-123" ""] ∧
    formatCommitWithLink (mkCommit "f2" "FOCUS-123" "") "US" "US" none = "- US 123\n" :=
  ⟨by decide, by decide, by decide⟩

/-- C2 (amended): reference-mode matching is substring-based with no
word-boundary requirement: for every prefix `s₁` — alphabetic or not — a text
`s₁ ++ "US-123"` matches the `US` rule and the commit carrying it receives a
section entry. -/
theorem us_rule_matches_inside_word (s₁ : String) :
    refTest "US" (s₁ ++ "US-123") = true ∧
    refSectionCommits defaultRefSections [mkCommit "f1" (s₁ ++ "US-123") ""] "User Stories" =
      [mkCommit "f1" (s₁ ++ "US-123") ""] := by
  constructor
  · exact refTest_append "US" s₁ "US-123" (by decide)
  · have hst : searchText (mkCommit "f1" (s₁ ++ "US-123") "") = s₁ ++ "US-123\n" := by
      simp only [searchText, mkCommit]
      rw [String.append_assoc, String.append_assoc]
      rfl
    have h2 : refTest "US" (s₁ ++ "US-123\n") = true :=
      refTest_append "US" s₁ "US-123\n" (by decide)
    simp +decide [refSectionCommits, defaultRefSections, hst, h2]

/-- C10 helper: a label glued directly to non-alphabetic, non-separator-headed
text admits no match of the reference regex at any position: at position `0`
the mandatory separator run is empty, and at any later position the label
would have to compare one of its (alphabetic) characters against a
non-alphabetic character of the tail. -/
theorem glued_no_match {L rest : List Char} (hL : L ≠ [])
    (hLa : ∀ c ∈ L, c.isAlpha = true) (hra : ∀ c ∈ rest, c.isAlpha = false)
    (hr0 : ∀ c, rest.head? = some c → isSepChar c = false) :
    ∀ p, matchRefAt L ((L ++ rest).drop p) = none := by
  intro p
  cases p with
  | zero =>
    rw [List.drop_zero]
    apply matchRefAt_none_of_no_sep
    rw [List.drop_left]
    cases rest with
    | nil => rfl
    | cons c r =>
      have := hr0 c rfl
      simp [List.takeWhile_cons, this]
  | succ p' =>
    apply matchRefAt_none_of_not_starts
    by_contra hcon
    rw [Bool.not_eq_false] at hcon
    rw [List.drop_append_eq_append_drop] at hcon
    have hLpos : 0 < L.length := List.length_pos.mpr hL
    have hk : (L.drop (p' + 1)).length < L.length := by
      rw [List.length_drop]
      omega
    obtain ⟨a, b, hpa, htb, hab⟩ := startsWithI_getElem? hcon (L.drop (p' + 1)).length hk
    have haa : a.isAlpha = true := hLa a (List.getElem?_mem hpa)
    have hb2 : (rest.drop (p' + 1 - L.length))[0]? = some b := by
      rw [List.getElem?_append_right (Nat.le_refl _)] at htb
      simpa using htb
    have hbmem : b ∈ rest := List.mem_of_mem_drop (List.getElem?_mem hb2)
    rw [charIEq_alpha_not_alpha haa (hra b hbmem)] at hab
    cases hab

/-- C10: reference extraction requires at least one separator character
between the label and the ticket token.  (1) For every alphabetic label and
every digit-headed, non-alphabetic tail, the text `label ++ tail` — the label
glued directly to digits, e.g. `US123` — yields no reference at all; (2) every
successful match consumes strictly more characters than label and ticket
together, i.e. a nonempty separator run; (3) concretely, `US123` yields no
reference in the revert reconciler's index scan, in entry rendering, and in
section grouping. -/
theorem glued_label_never_matches :
    (∀ label ds : String, label.data ≠ [] → (∀ c ∈ label.data, c.isAlpha = true) →
      (∀ c ∈ ds.data, c.isAlpha = false) →
      (∀ c, ds.data.head? = some c → isSepChar c = false) →
      refTest label (label ++ ds) = false ∧ scanRefs label (label ++ ds) = []) ∧
    (∀ (label t r : List Char) (n : Nat), matchRefAt label t = some (r, n) →
      label.length + r.length < n) ∧
    commitTickets (mkCommit "g10" "US123" "") = [] ∧
    formatCommitWithLink (mkCommit "g10" "US123" "") "US" "US" none = "" ∧
    refSectionCommits defaultRefSections [mkCommit "g10" "US123" ""] "User Stories" = [] := by
  refine ⟨?_, ?_, by decide, by decide, by decide⟩
  · intro label ds hL hLa hra hr0
    have hdata : (label ++ ds).data = label.data ++ ds.data := rfl
    have hscan : scanAux (matchRefAt label.data) (label.data ++ ds.data) 0 = [] :=
      scanAux_nil_of_no_match _ (glued_no_match hL hLa hra hr0)
    constructor
    · simp [refTest, scanWith, hdata, hscan]
    · simp [scanRefs, scanWith, hdata, hscan]
  · intro label t r n h
    exact matchRefAt_sep_consumed h

/-- C10 witness: the theorem applied to the label `US` and the glued digits
`123`. -/
theorem glued_label_never_matches_witness :
    refTest "US" ("US" ++ "123") = false ∧ scanRefs "US" ("US" ++ "123") = [] :=
  glued_label_never_matches.1 "US" "123" (by decide) (by decide) (by decide) (by decide)

/-! ## Lemmas about the revert reconciler -/

theorem mem_enumFrom_iff {α : Type _} :
    ∀ (l : List α) (n i : Nat) (a : α),
      (i, a) ∈ List.enumFrom n l ↔ ∃ k, i = n + k ∧ l[k]? = some a := by
  intro l
  induction l with
  | nil => simp
  | cons x xs ih =>
    intro n i a
    simp only [List.enumFrom_cons, List.mem_cons, ih, Prod.mk.injEq]
    constructor
    · rintro (⟨hi, ha⟩ | ⟨k, hk, ha⟩)
      · exact ⟨0, by omega, by simp [ha]⟩
      · exact ⟨k + 1, by omega, by simpa using ha⟩
    · rintro ⟨k, hk, ha⟩
      cases k with
      | zero =>
        left
        simp only [List.getElem?_cons_zero, Option.some.injEq] at ha
        exact ⟨by omega, ha.symm⟩
      | succ k =>
        right
        exact ⟨k, by omega, by simpa using ha⟩

theorem mem_enum_iff {α : Type _} {l : List α} {i : Nat} {a : α} :
    (i, a) ∈ l.enum ↔ l[i]? = some a := by
  rw [List.enum, mem_enumFrom_iff]
  constructor
  · rintro ⟨k, hk, ha⟩
    have : i = k := by omega
    rw [this]
    exact ha
  · intro h
    exact ⟨i, by omega, h⟩

theorem mem_ticketIndex_iff {cs : List Commit} {t : String} {i : Nat} :
    i ∈ ticketIndex cs t ↔ ∃ c, cs[i]? = some c ∧ t ∈ commitTickets c := by
  unfold ticketIndex ticketIndexEntries
  simp only [List.mem_filterMap, List.mem_flatMap, List.mem_map]
  constructor
  · rintro ⟨⟨t', j⟩, ⟨⟨j', cj⟩, hj, t'', ht'', heq⟩, hcond⟩
    have ht' : t'' = t' := congrArg Prod.fst heq
    have hj' : j' = j := congrArg Prod.snd heq
    subst ht'
    subst hj'
    split at hcond
    · next ht =>
      injection hcond with hij
      subst hij
      subst ht
      exact ⟨cj, mem_enum_iff.mp hj, ht''⟩
    · cases hcond
  · rintro ⟨c, hc, ht⟩
    exact ⟨(t, i), ⟨(i, c), mem_enum_iff.mpr hc, t, ht, rfl⟩, by simp⟩

theorem mem_revertCommitHashes_iff {cs : List Commit} {h : String} :
    h ∈ revertCommitHashes cs ↔ ∃ c ∈ cs, isRevert c = true ∧ c.hash = h := by
  unfold revertCommitHashes
  simp only [List.mem_map, List.mem_filter]
  constructor
  · rintro ⟨c, ⟨hc, hr⟩, rfl⟩
    exact ⟨c, hc, hr, rfl⟩
  · rintro ⟨c, hc, hr, rfl⟩
    exact ⟨c, ⟨hc, hr⟩, rfl⟩

theorem mem_commitsToRemove_iff {cs : List Commit} {h : String} :
    h ∈ commitsToRemove cs ↔
      ∃ (j : Nat) (cj : Commit), cs[j]? = some cj ∧ isRevert cj = true ∧
        ∃ t ∈ commitTickets cj, ∃ (i : Nat) (ci : Commit), cs[i]? = some ci ∧ i < j ∧
          t ∈ commitTickets ci ∧ ci.hash = h := by
  unfold commitsToRemove
  rw [List.mem_flatMap]
  constructor
  · rintro ⟨⟨j, cj⟩, hj, hin⟩
    by_cases hrev : isRevert cj = true
    · rw [if_pos hrev, List.mem_flatMap] at hin
      obtain ⟨t, ht, hin⟩ := hin
      rw [List.mem_filterMap] at hin
      obtain ⟨idx, hidx, hmap⟩ := hin
      rw [List.mem_filter] at hidx
      obtain ⟨hidx, hlt⟩ := hidx
      rw [Option.map_eq_some'] at hmap
      obtain ⟨ci, hci, hcih⟩ := hmap
      obtain ⟨ci', hci', hti'⟩ := mem_ticketIndex_iff.mp hidx
      rw [hci] at hci'
      injection hci' with hcc
      subst hcc
      exact ⟨j, cj, mem_enum_iff.mp hj, hrev, t, ht, idx, ci, hci,
        of_decide_eq_true (by simpa using hlt), hti', hcih⟩
    · rw [if_neg hrev] at hin
      cases hin
  · rintro ⟨j, cj, hj, hrev, t, ht, i, ci, hci, hij, hti, rfl⟩
    refine ⟨(j, cj), mem_enum_iff.mpr hj, ?_⟩
    rw [if_pos hrev, List.mem_flatMap]
    refine ⟨t, ht, ?_⟩
    rw [List.mem_filterMap]
    refine ⟨i, ?_, ?_⟩
    · rw [List.mem_filter]
      exact ⟨mem_ticketIndex_iff.mpr ⟨ci, hci, hti⟩, by simpa using hij⟩
    · rw [hci]
      rfl

theorem filterReverted_sublist (cs : List Commit) :
    List.Sublist (filterRevertedCommits cs) cs :=
  List.filter_sublist cs

theorem not_contains_iff {l : List String} {a : String} :
    (!l.contains a) = true ↔ a ∉ l := by
  simp [List.contains]

theorem mem_filterReverted_iff {cs : List Commit} {c : Commit} :
    c ∈ filterRevertedCommits cs ↔
      c ∈ cs ∧ c.hash ∉ revertCommitHashes cs ∧ c.hash ∉ commitsToRemove cs := by
  unfold filterRevertedCommits
  rw [List.mem_filter]
  simp [List.contains]

theorem no_revert_in_output (cs : List Commit) :
    ∀ c ∈ filterRevertedCommits cs, isRevert c = false := by
  intro c hc
  obtain ⟨hmem, hnr, _⟩ := mem_filterReverted_iff.mp hc
  by_contra h
  rw [Bool.not_eq_false] at h
  exact hnr (mem_revertCommitHashes_iff.mpr ⟨c, hmem, h, rfl⟩)

theorem filterReverted_of_no_revert {cs : List Commit}
    (h : ∀ c ∈ cs, isRevert c = false) : filterRevertedCommits cs = cs := by
  have hrev : revertCommitHashes cs = [] := by
    unfold revertCommitHashes
    rw [List.filter_eq_nil_iff.mpr (by intro a ha; simp [h a ha])]
    rfl
  have hrem : commitsToRemove cs = [] := by
    unfold commitsToRemove
    rw [List.flatMap_eq_nil_iff.mpr]
    intro p hp
    obtain ⟨j, cj⟩ := p
    have : cj ∈ cs := List.getElem?_mem (mem_enum_iff.mp hp)
    simp [h cj this]
  simp [filterRevertedCommits, hrev, hrem]

/-- C7: revert reconciliation is idempotent: a sequence without revert markers
is returned unchanged, and since the reconciler's output never contains a
revert marker, reconciling an already-reconciled sequence changes nothing. -/
theorem revert_reconciler_idempotent :
    (∀ cs : List Commit, (∀ c ∈ cs, isRevert c = false) → filterRevertedCommits cs = cs) ∧
    (∀ cs : List Commit,
      filterRevertedCommits (filterRevertedCommits cs) = filterRevertedCommits cs) :=
  ⟨fun _ h => filterReverted_of_no_revert h,
   fun cs => filterReverted_of_no_revert (no_revert_in_output cs)⟩

/-- C7 witness: the theorem applied to a concrete revert-free sequence. -/
theorem revert_reconciler_idempotent_witness :
    filterRevertedCommits [mkCommit "w71" "feat: a" "", mkCommit "w72" "fix: b" ""] =
      [mkCommit "w71" "feat: a" "", mkCommit "w72" "fix: b" ""] :=
  revert_reconciler_idempotent.1 _ (by decide)

theorem pairwise_triv {α : Type _} {R : α → α → Prop} (h : ∀ a b, R a b) :
    ∀ l : List α, l.Pairwise R
  | [] => .nil
  | a :: l => .cons (fun b _ => h a b) (pairwise_triv h l)

theorem entries_pairwise (cs : List Commit) :
    ∀ n : Nat,
      ((List.enumFrom n cs).flatMap fun p => (commitTickets p.2).map fun t =>
          (t, p.1)).Pairwise (fun a b => a.2 ≤ b.2) ∧
        ∀ e ∈ (List.enumFrom n cs).flatMap fun p => (commitTickets p.2).map fun t =>
          (t, p.1), n ≤ e.2 := by
  induction cs with
  | nil => intro n; simp
  | cons c cs ih =>
    intro n
    rw [List.enumFrom_cons, List.flatMap_cons]
    have hhead : ∀ e ∈ (commitTickets c).map fun t => (t, n), e.2 = n := by
      intro e he
      rw [List.mem_map] at he
      obtain ⟨t, _, rfl⟩ := he
      rfl
    constructor
    · rw [List.pairwise_append]
      refine ⟨?_, (ih (n + 1)).1, ?_⟩
      · rw [List.pairwise_map]
        exact pairwise_triv (fun _ _ => Nat.le_refl n) _
      · intro a ha b hb
        have h1 := hhead a ha
        have h2 := (ih (n + 1)).2 b hb
        omega
    · intro e he
      rw [List.mem_append] at he
      rcases he with he | he
      · rw [hhead e he]
      · have := (ih (n + 1)).2 e he
        omega

theorem filterMap_if_sublist (t : String) :
    ∀ l : List (String × Nat),
      List.Sublist (l.filterMap fun e => if e.1 = t then some e.2 else none)
        (l.map Prod.snd)
  | [] => List.Sublist.slnil
  | e :: l => by
    rw [List.map_cons, List.filterMap_cons]
    by_cases he : e.1 = t
    · rw [if_pos he]
      exact List.Sublist.cons₂ _ (filterMap_if_sublist t l)
    · rw [if_neg he]
      exact List.Sublist.cons _ (filterMap_if_sublist t l)

theorem ticketIndex_pairwise (cs : List Commit) (t : String) :
    (ticketIndex cs t).Pairwise (· ≤ ·) := by
  have hsub : List.Sublist (ticketIndex cs t) ((ticketIndexEntries cs).map Prod.snd) :=
    filterMap_if_sublist t _
  have hp : ((ticketIndexEntries cs).map Prod.snd).Pairwise (· ≤ ·) := by
    rw [List.pairwise_map]
    exact (entries_pairwise cs 0).1
  exact hp.sublist hsub

/-- C5 (amended): the revert reconciler's reference index is keyed by ticket
number alone — not by a (label, ticketId) pair — and is built by scanning each
commit's message plus body with the fixed built-in labels `US` and `BUG`
(`commitTickets`), regardless of any configured rule set (the reconciler never
receives the rules): position `i` is recorded under ticket `t` iff commit `i`
carries `t`, and the recorded positions are in chronological order. -/
theorem reconciler_index_characterization :
    (∀ (cs : List Commit) (t : String), (ticketIndex cs t).Pairwise (· ≤ ·)) ∧
    (∀ (cs : List Commit) (t : String) (i : Nat),
      i ∈ ticketIndex cs t ↔ ∃ c, cs[i]? = some c ∧ t ∈ commitTickets c) :=
  ⟨fun cs t => ticketIndex_pairwise cs t, fun _ _ _ => mem_ticketIndex_iff⟩

/-- C5 counterexample: the claim's (label, ticketId)-keyed, rule-driven index
(`refIndexClaim`) disagrees with the code.  With no rules configured, the
code's index lists positions 0 and 1 under the single key `5` although no
single (label, ticket) reference is carried by both commits — so the
`Revert ... BUG-5` marker removes the `US-5` commit.  With a `TASK` rule
configured, the claim's index records the `TASK-3` reference while the code's
scan, hard-wired to `US|BUG`, records nothing. -/
theorem reconciler_index_claim_counterexample :
    ticketIndex [mkCommit "a5" "feat: pay" "US-5", mkCommit "r5" "Revert pay" "BUG-5"]
        "5" = [0, 1] ∧
    refIndexClaim none
        [mkCommit "a5" "feat: pay" "US-5", mkCommit "r5" "Revert pay" "BUG-5"]
        "US" "5" = [0] ∧
    refIndexClaim none
        [mkCommit "a5" "feat: pay" "US-5", mkCommit "r5" "Revert pay" "BUG-5"]
        "BUG" "5" = [1] ∧
    filterRevertedCommits
        [mkCommit "a5" "feat: pay" "US-5", mkCommit "r5" "Revert pay" "BUG-5"] = [] ∧
    ticketIndexEntries [mkCommit "t5" "feat: work" "TASK-3"] = [] ∧
    refIndexClaim (some [{ sectionName := "Tasks", pattern := "TASK", label := "TASK" }])
        [mkCommit "t5" "feat: work" "TASK-3"] "TASK" "3" = [0] := by
  decide

theorem hash_inj {cs : List Commit} (hN : (cs.map Commit.hash).Nodup) {a b : Commit}
    (ha : a ∈ cs) (hb : b ∈ cs) (h : a.hash = b.hash) : a = b :=
  List.inj_on_of_nodup_map hN ha hb h

theorem nodup_index_inj {cs : List Commit} (hN : (cs.map Commit.hash).Nodup)
    {i j : Nat} {a : Commit} (hi : cs[i]? = some a) (hj : cs[j]? = some a) : i = j := by
  have hnd : cs.Nodup := hN.of_map
  obtain ⟨hilt, hieq⟩ := List.getElem?_eq_some_iff.mp hi
  obtain ⟨hjlt, hjeq⟩ := List.getElem?_eq_some_iff.mp hj
  exact (List.Nodup.getElem_inj_iff hnd).mp (by rw [hieq, hjeq])

/-- C1 (amended): with pairwise-distinct commit ids (the data model's
invariant), if commit `A` at position `i` carries ticket `X`, revert marker `R`
at position `j > i` carries `X`, and commit `B` at position `k > j` carries
`X`, then the reconciled output excludes `A` and `R`, preserves the original
chronological order, and includes `B` — provided `B` is not itself a revert
marker and no revert marker after position `k` shares a ticket with `B` (a
later revert, or a revert-shaped `B`, removes `B` as well, which the
unqualified claim overlooks). -/
theorem revert_ordering_amended (cs : List Commit)
    (hN : (cs.map Commit.hash).Nodup) (i j k : Nat) (A R B : Commit) (X : String)
    (hA : cs[i]? = some A) (hR : cs[j]? = some R) (hB : cs[k]? = some B)
    (hij : i < j) (hjk : j < k)
    (hRrev : isRevert R = true)
    (hXA : X ∈ commitTickets A) (hXR : X ∈ commitTickets R) (hXB : X ∈ commitTickets B)
    (hBrev : isRevert B = false)
    (hlater : ∀ (m : Nat) (C : Commit), k < m → cs[m]? = some C → isRevert C = true →
      ∀ t ∈ commitTickets C, t ∉ commitTickets B) :
    A ∉ filterRevertedCommits cs ∧ R ∉ filterRevertedCommits cs ∧
      B ∈ filterRevertedCommits cs ∧ List.Sublist (filterRevertedCommits cs) cs := by
  refine ⟨?_, ?_, ?_, filterReverted_sublist cs⟩
  · intro hmem
    obtain ⟨_, _, hrem⟩ := mem_filterReverted_iff.mp hmem
    exact hrem (mem_commitsToRemove_iff.mpr ⟨j, R, hR, hRrev, X, hXR, i, A, hA, hij, hXA, rfl⟩)
  · intro hmem
    obtain ⟨_, hrev, _⟩ := mem_filterReverted_iff.mp hmem
    exact hrev (mem_revertCommitHashes_iff.mpr ⟨R, List.getElem?_mem hR, hRrev, rfl⟩)
  · refine mem_filterReverted_iff.mpr ⟨List.getElem?_mem hB, ?_, ?_⟩
    · intro hmem
      obtain ⟨c, hc, hcrev, hch⟩ := mem_revertCommitHashes_iff.mp hmem
      have : c = B := hash_inj hN hc (List.getElem?_mem hB) hch
      rw [this, hBrev] at hcrev
      cases hcrev
    · intro hmem
      obtain ⟨j', cj', hj', hrev', t, ht', i', ci', hi', hij', hti', hch⟩ :=
        mem_commitsToRemove_iff.mp hmem
      have hciB : ci' = B :=
        hash_inj hN (List.getElem?_mem hi') (List.getElem?_mem hB) hch
      subst hciB
      have hik : i' = k := nodup_index_inj hN hi' hB
      subst hik
      exact hlater j' cj' hij' hj' hrev' t ht' hti'

/-- C1 counterexample: the claim quantifies over every sequence containing the
`A`/`R`/`B` pattern and asserts `B` always survives; with a second revert
marker after `B` carrying the same reference, the code removes `B` as well,
so the unqualified claim is false. -/
theorem revert_ordering_claim_counterexample :
    isRevert (mkCommit "r2" "Revert add login" "US-1") = true ∧
    "1" ∈ commitTickets (mkCommit "a2" "feat: add login" "US-1") ∧
    "1" ∈ commitTickets (mkCommit "r2" "Revert add login" "US-1") ∧
    "1" ∈ commitTickets (mkCommit "b2" "feat: redo login" "US-1") ∧
    mkCommit "b2" "feat: redo login" "US-1" ∉
      filterRevertedCommits
        [mkCommit "a2" "feat: add login" "US-1", mkCommit "r2" "Revert add login" "US-1",
         mkCommit "b2" "feat: redo login" "US-1",
         mkCommit "q2" "Revert redo login" "US-1"] := by
  decide

/-- C1 witness: the amended theorem applied to the three-commit sequence
`A`, `R`, `B` with ticket `7`. -/
theorem revert_ordering_amended_witness :
    mkCommit "a1" "feat: add login" "US-7" ∉
        filterRevertedCommits
          [mkCommit "a1" "feat: add login" "US-7", mkCommit "r1" "Revert add login" "US-7",
           mkCommit "b1" "feat: redo login" "US-7"] ∧
      mkCommit "r1" "Revert add login" "US-7" ∉
        filterRevertedCommits
          [mkCommit "a1" "feat: add login" "US-7", mkCommit "r1" "Revert add login" "US-7",
           mkCommit "b1" "feat: redo login" "US-7"] ∧
      mkCommit "b1" "feat: redo login" "US-7" ∈
        filterRevertedCommits
          [mkCommit "a1" "feat: add login" "US-7", mkCommit "r1" "Revert add login" "US-7",
           mkCommit "b1" "feat: redo login" "US-7"] ∧
      List.Sublist
        (filterRevertedCommits
          [mkCommit "a1" "feat: add login" "US-7", mkCommit "r1" "Revert add login" "US-7",
           mkCommit "b1" "feat: redo login" "US-7"])
        [mkCommit "a1" "feat: add login" "US-7", mkCommit "r1" "Revert add login" "US-7",
         mkCommit "b1" "feat: redo login" "US-7"] :=
  revert_ordering_amended
    [mkCommit "a1" "feat: add login" "US-7", mkCommit "r1" "Revert add login" "US-7",
     mkCommit "b1" "feat: redo login" "US-7"]
    (by decide) 0 1 2 _ _ _ "7" (by decide) (by decide) (by decide) (by decide) (by decide)
    (by decide) (by decide) (by decide) (by decide) (by decide)
    (by
      intro m C hm hC hrev t ht
      have : ([mkCommit "a1" "feat: add login" "US-7",
          mkCommit "r1" "Revert add login" "US-7",
          mkCommit "b1" "feat: redo login" "US-7"] : List Commit)[m]? = none := by
        apply List.getElem?_eq_none
        simp only [List.length_cons, List.length_nil]
        omega
      rw [this] at hC
      cases hC)

/-! ## Lemmas about prefix-mode grouping -/

theorem mem_matchedHashes_iff {sections : List SectionMapping} {commits : List Commit}
    {h : String} :
    h ∈ matchedHashes sections commits ↔
      ∃ c ∈ commits, (firstMatchSection sections c.message).isSome = true ∧ c.hash = h := by
  unfold matchedHashes
  rw [List.mem_filterMap]
  constructor
  · rintro ⟨c, hc, hif⟩
    by_cases hs : (firstMatchSection sections c.message).isSome = true
    · rw [if_pos hs] at hif
      injection hif with hh
      exact ⟨c, hc, hs, hh⟩
    · rw [if_neg hs] at hif
      cases hif
  · rintro ⟨c, hc, hs, hh⟩
    exact ⟨c, hc, by rw [if_pos hs, hh]⟩

theorem matchedHashes_self {sections : List SectionMapping} {commits : List Commit}
    (hN : (commits.map Commit.hash).Nodup) {c : Commit} (hc : c ∈ commits) :
    c.hash ∈ matchedHashes sections commits ↔
      (firstMatchSection sections c.message).isSome = true := by
  rw [mem_matchedHashes_iff]
  constructor
  · rintro ⟨c', hc', hs, hh⟩
    rwa [hash_inj hN hc' hc hh] at hs
  · intro hs
    exact ⟨c, hc, hs, rfl⟩

theorem mem_grouped_iff {sections : List SectionMapping} {commits : List Commit}
    {name : String} {c : Commit} :
    c ∈ groupedCommitsGet sections commits name ↔
      (c ∈ commits ∧
        (firstMatchSection sections c.message).map SectionMapping.sectionName = some name) ∨
      (∃ ca, sections.find? (fun s => s.pattern = ".*") = some ca ∧ ca.sectionName = name ∧
        c ∈ commits ∧ c.hash ∉ matchedHashes sections commits) := by
  unfold groupedCommitsGet
  rw [List.mem_append, List.mem_filter]
  constructor
  · rintro (⟨hc, hp⟩ | hin)
    · exact Or.inl ⟨hc, of_decide_eq_true hp⟩
    · right
      split at hin
      · next ca hfind =>
        by_cases hname : ca.sectionName = name
        · rw [if_pos hname, List.mem_filter] at hin
          obtain ⟨hc, hh⟩ := hin
          refine ⟨ca, hfind, hname, hc, ?_⟩
          simpa [List.contains] using hh
        · rw [if_neg hname] at hin
          cases hin
      · next hfind =>
        cases hin
  · rintro (⟨hc, hp⟩ | ⟨ca, hfind, hname, hc, hh⟩)
    · exact Or.inl ⟨hc, decide_eq_true hp⟩
    · right
      rw [hfind]
      show c ∈ if ca.sectionName = name then _ else _
      rw [if_pos hname, List.mem_filter]
      refine ⟨hc, ?_⟩
      simpa [List.contains] using hh

/-- C4: in prefix mode (with pairwise-distinct commit ids, the data model's
invariant, and a catch-all rule present as in the built-in rule list), every
commit lands in exactly one section bucket; a commit whose first matching
non-catch-all rule is `m` lands in `m`'s section (rules tried in list order,
first match wins), and a commit matched by no rule lands in the catch-all's
section, wherever the catch-all sits in the list — the catch-all pass runs
after the matching loop. -/
theorem prefix_mode_partition (sections : List SectionMapping) (commits : List Commit)
    (hN : (commits.map Commit.hash).Nodup)
    (hca : ∃ m ∈ sections, m.pattern = ".*") :
    ∀ c ∈ commits,
      (∃! name : String, c ∈ groupedCommitsGet sections commits name) ∧
      (∀ m, firstMatchSection sections c.message = some m →
        c ∈ groupedCommitsGet sections commits m.sectionName) ∧
      (∀ ca, sections.find? (fun s => s.pattern = ".*") = some ca →
        firstMatchSection sections c.message = none →
        c ∈ groupedCommitsGet sections commits ca.sectionName) := by
  intro c hc
  have hfindSome : (sections.find? fun s => s.pattern = ".*").isSome = true := by
    rw [List.find?_isSome]
    obtain ⟨m, hm, hp⟩ := hca
    exact ⟨m, hm, decide_eq_true hp⟩
  obtain ⟨ca, hfind⟩ := Option.isSome_iff_exists.mp hfindSome
  refine ⟨?_, ?_, ?_⟩
  · cases hm : firstMatchSection sections c.message with
    | some m =>
      refine ⟨m.sectionName, mem_grouped_iff.mpr (Or.inl ⟨hc, by rw [hm]; rfl⟩), ?_⟩
      intro n hn
      rcases mem_grouped_iff.mp hn with ⟨_, hmap⟩ | ⟨ca', _, _, _, hnot⟩
      · rw [hm] at hmap
        injection hmap with hmap
        exact hmap.symm
      · exact absurd ((matchedHashes_self hN hc).mpr (by rw [hm]; rfl)) hnot
    | none =>
      have hunm : c.hash ∉ matchedHashes sections commits := by
        intro hmem
        have := (matchedHashes_self hN hc).mp hmem
        rw [hm] at this
        cases this
      refine ⟨ca.sectionName, mem_grouped_iff.mpr (Or.inr ⟨ca, hfind, rfl, hc, hunm⟩), ?_⟩
      intro n hn
      rcases mem_grouped_iff.mp hn with ⟨_, hmap⟩ | ⟨ca', hfind', hname, _, _⟩
      · rw [hm] at hmap
        cases hmap
      · rw [hfind] at hfind'
        injection hfind' with hcc
        rw [← hname, hcc]
  · intro m hm
    exact mem_grouped_iff.mpr (Or.inl ⟨hc, by rw [hm]; rfl⟩)
  · intro ca' hfind' hm
    have hunm : c.hash ∉ matchedHashes sections commits := by
      intro hmem
      have := (matchedHashes_self hN hc).mp hmem
      rw [hm] at this
      cases this
    exact mem_grouped_iff.mpr (Or.inr ⟨ca', hfind', rfl, hc, hunm⟩)

/-- C4 witness: the theorem applied to the built-in rule list and a concrete
one-commit list. -/
theorem prefix_mode_partition_witness :
    (∃! name : String,
      mkCommit "w4" "feat: x" "" ∈
        groupedCommitsGet conventionalSections [mkCommit "w4" "feat: x" ""] name) ∧
    (∀ m, firstMatchSection conventionalSections (mkCommit "w4" "feat: x" "").message =
        some m →
      mkCommit "w4" "feat: x" "" ∈
        groupedCommitsGet conventionalSections [mkCommit "w4" "feat: x" ""] m.sectionName) ∧
    (∀ ca, conventionalSections.find? (fun s => s.pattern = ".*") = some ca →
      firstMatchSection conventionalSections (mkCommit "w4" "feat: x" "").message = none →
      mkCommit "w4" "feat: x" "" ∈
        groupedCommitsGet conventionalSections [mkCommit "w4" "feat: x" ""] ca.sectionName) :=
  prefix_mode_partition conventionalSections [mkCommit "w4" "feat: x" ""] (by decide)
    (by decide) (mkCommit "w4" "feat: x" "") (by decide)

/-! ## The pipeline claims -/

/-- C9: in basic (prefix) mode the pipeline's output is independent of the
user-supplied `sections` option: `generateMarkdown` does not take the rules at
all and classifies with the hard-coded built-in list (`conventionalSections`:
Features `^feat`, Bug Fixes `^fix`, Other Changes `.*`), so two runs that
differ only in the `sections` option produce identical output. -/
theorem basic_mode_ignores_sections (stdout today : String) (fromRef : Option String)
    (toRef : String) (baseUrl : Option String) (s₁ s₂ : Option (List SectionMapping))
    (last : Bool) :
    generateReleaseNotesCore stdout
        { releaseNotes := false, fromRef := fromRef, toRef := toRef, baseUrl := baseUrl,
          sections := s₁, last := last } today =
      generateReleaseNotesCore stdout
        { releaseNotes := false, fromRef := fromRef, toRef := toRef, baseUrl := baseUrl,
          sections := s₂, last := last } today := rfl

/-- C8 counterexample: the generation timestamp is read from the wall clock
inside `generateMarkdown` and `generateReleaseNotesMarkdown`
(`new Date().toISOString()`), not supplied by an external renderer: two runs
over identical input and rules but on different days produce different
output, so the claimed wall-clock independence is false. -/
theorem generated_date_dependence :
    generateMarkdown "2024-01-01" [] none "HEAD" false ≠
        generateMarkdown "2024-01-02" [] none "HEAD" false ∧
      generateReleaseNotesMarkdown "2024-01-01" [] none "HEAD" none none false ≠
        generateReleaseNotesMarkdown "2024-01-02" [] none "HEAD" none none false := by
  decide

/-- C8 (amended): the core is deterministic up to the wall-clock date it reads
internally: given identical input text, identical rules and an identical
current date, two runs produce exactly the same output — no other source of
nondeterminism exists in the embedding. -/
theorem core_deterministic_given_date (stdout today₁ today₂ : String)
    (opts : CoreOptions) (h : today₁ = today₂) :
    generateReleaseNotesCore stdout opts today₁ =
      generateReleaseNotesCore stdout opts today₂ := by
  rw [h]

/-- C8 witness: the amended determinism theorem applied to a concrete run. -/
theorem core_deterministic_given_date_witness :
    generateReleaseNotesCore "x\ny\nz\nw\nv\n---END---\n" {} "2024-01-01" =
      generateReleaseNotesCore "x\ny\nz\nw\nv\n---END---\n" {} "2024-01-01" :=
  core_deterministic_given_date "x\ny\nz\nw\nv\n---END---\n" "2024-01-01" "2024-01-01" {} rfl

/-- C3 counterexample: a parsable input whose only commit is a revert marker:
after reconciliation the filtered set is empty, yet the pipeline completes
normally (no 'No commits found' error), contradicting the claimed
if-and-only-if. -/
theorem empty_filtered_set_completes :
    (generateReleaseNotesCore
          "deadbeef\nRevert login\nAl\nal@x\n2024-01-02\nUS-9\n---END---\n" {}
          "2024-06-01").toOption.isSome = true ∧
      parseGitLog "deadbeef\nRevert login\nAl\nal@x\n2024-01-02\nUS-9\n---END---\n" ≠ [] ∧
      filterRevertedCommits
        (parseGitLog "deadbeef\nRevert login\nAl\nal@x\n2024-01-02\nUS-9\n---END---\n") =
          [] := by
  refine ⟨by decide, by decide, by decide⟩

/-- C3 (amended): the pipeline fails with 'No commits found' iff the raw text
is empty after trimming or contains no parsable commit blocks; an empty result
set after revert reconciliation (or after section exclusion) does not raise
the error — the pipeline completes normally and renders an empty document. -/
theorem empty_input_error_iff (stdout today : String) (opts : CoreOptions) :
    generateReleaseNotesCore stdout opts today = Except.error "No commits found" ↔
      (jsTrim stdout = "" ∨ parseGitLog stdout = []) := by
  unfold generateReleaseNotesCore
  by_cases h1 : jsTrim stdout = ""
  · simp [h1]
  · rw [if_neg h1]
    by_cases h2 : (parseGitLog stdout).isEmpty = true
    · rw [if_pos h2]
      simp [h1, List.isEmpty_iff.mp h2]
    · rw [if_neg h2]
      have h2' : parseGitLog stdout ≠ [] := by simpa [List.isEmpty_iff] using h2
      split <;> simp [h1, h2']

/-! ## Lemmas about the log parser -/

theorem leadsWith_iff : ∀ p t : List Char, leadsWith p t = true ↔ ∃ r, t = p ++ r := by
  intro p
  induction p with
  | nil =>
    intro t
    simp [leadsWith]
  | cons c p ih =>
    intro t
    cases t with
    | nil =>
      simp only [leadsWith, Bool.false_eq_true, false_iff]
      rintro ⟨r, hr⟩
      cases hr
    | cons d t =>
      simp only [leadsWith, Bool.and_eq_true, decide_eq_true_eq, ih, List.cons_append,
        List.cons.injEq]
      constructor
      · rintro ⟨rfl, r, rfl⟩
        exact ⟨r, rfl, rfl⟩
      · rintro ⟨r, rfl, rfl⟩
        exact ⟨rfl, r, rfl⟩

theorem leadsWith_append_self (p r : List Char) : leadsWith p (p ++ r) = true :=
  (leadsWith_iff p (p ++ r)).mpr ⟨r, rfl⟩

theorem leadsWith_of_append_le {p x y : List Char} (h : leadsWith p (x ++ y) = true)
    (hl : p.length ≤ x.length) : leadsWith p x = true := by
  obtain ⟨r, hr⟩ := (leadsWith_iff _ _).mp h
  rw [leadsWith_iff]
  refine ⟨x.drop p.length, ?_⟩
  have htake : (x ++ y).take p.length = x.take p.length :=
    List.take_append_of_le_length hl
  have htake2 : (p ++ r).take p.length = p := List.take_left p r
  rw [hr] at htake
  rw [htake2] at htake
  conv_lhs => rw [← List.take_append_drop p.length x]
  rw [← htake]

theorem hasOcc_iff {sep : List Char} :
    ∀ t, hasOcc sep t = true ↔ ∃ i, leadsWith sep (t.drop i) = true := by
  intro t
  induction t with
  | nil =>
    simp only [hasOcc]
    constructor
    · intro h
      exact ⟨0, by simpa using h⟩
    · rintro ⟨i, hi⟩
      simpa using hi
  | cons c rest ih =>
    simp only [hasOcc, Bool.or_eq_true, ih]
    constructor
    · rintro (h | ⟨i, hi⟩)
      · exact ⟨0, by simpa using h⟩
      · exact ⟨i + 1, by simpa using hi⟩
    · rintro ⟨i, hi⟩
      cases i with
      | zero => exact Or.inl (by simpa using hi)
      | succ i => exact Or.inr ⟨i, by simpa using hi⟩

theorem splitAux_skip (sep : List Char) :
    ∀ (t : List Char) (k : Nat), splitAux sep t k = splitAux sep (t.drop k) 0 := by
  intro t
  induction t with
  | nil => intro k; cases k <;> rfl
  | cons c rest ih =>
    intro k
    cases k with
    | zero => rfl
    | succ k => simpa [splitAux] using ih k

theorem splitAux_ne_nil (sep : List Char) :
    ∀ (t : List Char) (k : Nat), splitAux sep t k ≠ [] := by
  intro t
  induction t with
  | nil => intro k; cases k <;> simp [splitAux]
  | cons c rest ih =>
    intro k
    cases k with
    | succ k => simpa [splitAux] using ih k
    | zero =>
      simp only [splitAux]
      split
      · simp
      · split
        · simp
        · simp

theorem splitOnSep_ne_nil (sep t : List Char) : splitOnSep sep t ≠ [] :=
  splitAux_ne_nil sep t 0

theorem splitOnSep_append (sep : List Char) :
    ∀ (a b : List Char), sep ≠ [] →
      (∀ i, i < a.length → leadsWith sep ((a ++ (sep ++ b)).drop i) = false) →
      splitOnSep sep (a ++ (sep ++ b)) = a :: splitOnSep sep b := by
  intro a
  induction a with
  | nil =>
    intro b hsep _
    cases hs : sep with
    | nil => exact absurd hs hsep
    | cons s sep' =>
      subst hs
      have hlw : leadsWith (s :: sep') (s :: (sep' ++ b)) = true :=
        leadsWith_append_self (s :: sep') b
      show splitAux (s :: sep') (s :: (sep' ++ b)) 0 = [] :: splitAux (s :: sep') b 0
      simp only [splitAux, hlw, List.isEmpty_cons, Bool.not_false, Bool.and_self, if_true]
      rw [splitAux_skip]
      congr 1
      simp only [List.length_cons, Nat.add_sub_cancel]
      rw [List.drop_left]
  | cons c a' ih =>
    intro b hsep hocc
    have hlw : leadsWith sep (c :: (a' ++ (sep ++ b))) = false := by
      have := hocc 0 (by simp)
      simpa using this
    show splitAux sep (c :: (a' ++ (sep ++ b))) 0 = (c :: a') :: splitOnSep sep b
    simp only [splitAux, hlw, Bool.false_and, Bool.false_eq_true, if_false]
    have hrec := ih b hsep fun i hi => by
      have := hocc (i + 1) (by simpa using Nat.succ_lt_succ hi)
      simpa using this
    rw [show splitAux sep (a' ++ (sep ++ b)) 0 = splitOnSep sep (a' ++ (sep ++ b)) from rfl,
      hrec]

theorem sentinel_length : sentinel.length = 10 := rfl

theorem sentinel_no_overlap :
    ∀ k, 0 < k → k < 10 → sentinel.drop k ≠ sentinel.take (10 - k) := by
  intro k h1 h2
  interval_cases k <;> decide

theorem no_early_occurrence {a b : List Char} (ha : hasOcc sentinel a = false) :
    ∀ i, i < a.length → leadsWith sentinel ((a ++ (sentinel ++ b)).drop i) = false := by
  intro i hi
  by_contra hcon
  rw [Bool.not_eq_false] at hcon
  rw [List.drop_append_eq_append_drop, Nat.sub_eq_zero_of_le (Nat.le_of_lt hi),
    List.drop_zero] at hcon
  set adrop := a.drop i with hadrop
  have hk : adrop.length = a.length - i := by rw [hadrop, List.length_drop]
  have hkpos : 0 < adrop.length := by omega
  by_cases hbig : 10 ≤ adrop.length
  · have hlead : leadsWith sentinel adrop = true :=
      leadsWith_of_append_le hcon (by rw [sentinel_length]; exact hbig)
    have : hasOcc sentinel a = true := (hasOcc_iff a).mpr ⟨i, by rw [← hadrop]; exact hlead⟩
    rw [ha] at this
    cases this
  · obtain ⟨r, hr⟩ := (leadsWith_iff _ _).mp hcon
    have hsmall : adrop.length < 10 := by omega
    have htake : (adrop ++ (sentinel ++ b)).take 10 =
        adrop ++ (sentinel ++ b).take (10 - adrop.length) := by
      rw [List.take_append_eq_append_take]
      congr 1
      exact List.take_of_length_le (by omega)
    have htake2 : (sentinel ++ b).take (10 - adrop.length) =
        sentinel.take (10 - adrop.length) :=
      List.take_append_of_le_length (by rw [sentinel_length]; omega)
    have htake3 : (sentinel ++ r).take 10 = sentinel := by
      have := List.take_left sentinel r
      rwa [sentinel_length] at this
    have heq : adrop ++ sentinel.take (10 - adrop.length) = sentinel := by
      rw [← htake2, ← htake, hr, htake3]
    have hdrop : sentinel.drop adrop.length = sentinel.take (10 - adrop.length) := by
      conv_lhs => rw [← heq]
      rw [List.drop_left]
    exact sentinel_no_overlap adrop.length hkpos hsmall hdrop

theorem splitOnSep_renderLog_append :
    ∀ cs : List Commit, (∀ c ∈ cs, WellFormedCommit c) → ∀ tail : List Char,
      splitOnSep sentinel ((renderLog cs).data ++ tail) =
        (cs.map fun c => (renderBlock c).data) ++ splitOnSep sentinel tail := by
  intro cs
  induction cs with
  | nil =>
    intro _ tail
    rfl
  | cons c cs ih =>
    intro hwf tail
    have hwfc := hwf c (List.mem_cons_self c cs)
    have hdata : (renderLog (c :: cs)).data =
        ((renderBlock c).data ++ sentinel) ++ (renderLog cs).data := rfl
    rw [hdata]
    have hshape : (((renderBlock c).data ++ sentinel) ++ (renderLog cs).data) ++ tail =
        (renderBlock c).data ++ (sentinel ++ ((renderLog cs).data ++ tail)) := by
      simp [List.append_assoc]
    rw [hshape,
      splitOnSep_append sentinel _ _ (by decide) (no_early_occurrence hwfc.2.1),
      ih (fun c' hc' => hwf c' (List.mem_cons_of_mem _ hc')) tail]
    rfl

theorem splitOnSep_newline_cons {x rest : List Char} (hx : '\n' ∉ x) :
    splitOnSep ['\n'] (x ++ '\n' :: rest) = x :: splitOnSep ['\n'] rest := by
  have hocc : ∀ i, i < x.length →
      leadsWith ['\n'] ((x ++ (['\n'] ++ rest)).drop i) = false := by
    intro i hi
    rw [List.drop_append_eq_append_drop, Nat.sub_eq_zero_of_le (Nat.le_of_lt hi),
      List.drop_zero, List.drop_eq_getElem_cons hi, List.cons_append]
    have hne : x[i] ≠ '\n' := fun h => hx (h ▸ List.getElem_mem hi)
    simp only [leadsWith, Bool.and_eq_true, decide_eq_true_eq, Bool.and_eq_false_iff]
    left
    exact decide_eq_false fun h => hne h.symm
  exact splitOnSep_append ['\n'] x rest (by decide) hocc

theorem joinSep_splitOnSep_newline : ∀ t : List Char, joinSep ['\n'] (splitOnSep ['\n'] t) = t := by
  intro t
  induction t with
  | nil => rfl
  | cons c rest ih =>
    show joinSep ['\n'] (splitAux ['\n'] (c :: rest) 0) = c :: rest
    by_cases hc : c = '\n'
    · subst hc
      have hlw : leadsWith ['\n'] ('\n' :: rest) = true := by
        simp [leadsWith]
      simp only [splitAux, hlw, List.isEmpty_cons, Bool.not_false, Bool.and_self, if_true]
      cases hsp : splitOnSep ['\n'] rest with
      | nil => exact absurd hsp (splitOnSep_ne_nil _ _)
      | cons p ps =>
        show joinSep ['\n'] ([] :: splitAux ['\n'] rest 0) = '\n' :: rest
        rw [show splitAux ['\n'] rest 0 = splitOnSep ['\n'] rest from rfl, hsp]
        show [] ++ ['\n'] ++ joinSep ['\n'] (p :: ps) = '\n' :: rest
        rw [← hsp, ih]
        rfl
    · have hlw : leadsWith ['\n'] (c :: rest) = false := by
        simp only [leadsWith, Bool.and_eq_false_iff]
        left
        exact decide_eq_false fun h => hc h.symm
      simp only [splitAux, hlw, Bool.false_and, Bool.false_eq_true, if_false]
      cases hsp : splitOnSep ['\n'] rest with
      | nil => exact absurd hsp (splitOnSep_ne_nil _ _)
      | cons p ps =>
        rw [show splitAux ['\n'] rest 0 = splitOnSep ['\n'] rest from rfl, hsp]
        show joinSep ['\n'] ((c :: p) :: ps) = c :: rest
        rw [← ih, hsp]
        cases ps with
        | nil => rfl
        | cons q qs => rfl

theorem dropWhile_first {p : Char → Bool} :
    ∀ (t : List Char) (c : Char) (rest : List Char),
      t.dropWhile p = c :: rest → p c = false := by
  intro t
  induction t with
  | nil => intro c rest h; cases h
  | cons a t ih =>
    intro c rest h
    rw [List.dropWhile_cons] at h
    split at h
    · exact ih c rest h
    · next hpa =>
      injection h with h1 _
      subst h1
      simpa using hpa

theorem jsTrimL_ne_nil {t : List Char} {ch : Char} (hch : ch ∈ t)
    (hns : isJsSpace ch = false) : jsTrimL t ≠ [] := by
  unfold jsTrimL
  intro h
  rw [List.reverse_eq_nil_iff, List.dropWhile_eq_nil_iff] at h
  have hd : t.dropWhile isJsSpace ≠ [] := by
    intro hnil
    rw [List.dropWhile_eq_nil_iff] at hnil
    rw [hnil ch hch] at hns
    cases hns
  cases hdw : t.dropWhile isJsSpace with
  | nil => exact hd hdw
  | cons c0 rest0 =>
    have hc0 : isJsSpace c0 = false := dropWhile_first t c0 rest0 hdw
    have hmem : c0 ∈ (t.dropWhile isJsSpace).reverse := by
      rw [hdw]
      simp
    have := h c0 hmem
    rw [hc0] at this
    cases this

theorem jsTrimL_append_space {x : List Char} {ch : Char} (hch : isJsSpace ch = true) :
    jsTrimL (x ++ [ch]) = jsTrimL x := by
  unfold jsTrimL
  rw [List.dropWhile_append]
  by_cases hx : (x.dropWhile isJsSpace).isEmpty = true
  · rw [if_pos hx]
    have h1 : List.dropWhile isJsSpace [ch] = [] := by
      simp [List.dropWhile_cons, hch]
    rw [h1, List.isEmpty_iff.mp hx]
  · rw [if_neg hx]
    rw [List.reverse_append]
    simp only [List.reverse_cons, List.reverse_nil, List.nil_append, List.singleton_append]
    rw [List.dropWhile_cons, if_pos hch]

theorem filterMap_eq_map_of {α β : Type _} {f : α → Option β} {g : α → β} :
    ∀ l : List α, (∀ a ∈ l, f a = some (g a)) → l.filterMap f = l.map g := by
  intro l
  induction l with
  | nil => intro _; rfl
  | cons a l ih =>
    intro h
    rw [List.filterMap_cons, h a (List.mem_cons_self a l), List.map_cons,
      ih fun a' ha' => h a' (List.mem_cons_of_mem _ ha')]

theorem renderBlock_data (c : Commit) :
    (renderBlock c).data =
      c.hash.data ++ '\n' :: (c.message.data ++ '\n' :: (c.author_name.data ++ '\n' ::
        (c.author_email.data ++ '\n' :: (c.date.data ++ '\n' ::
          (c.body.data ++ '\n' :: []))))) := by
  show ((((((((((c.hash ++ "\n") ++ c.message) ++ "\n") ++ c.author_name) ++ "\n") ++
      c.author_email) ++ "\n") ++ c.date) ++ "\n") ++ c.body ++ "\n").data = _
  simp [List.append_assoc]

theorem parseBlock_renderBlock (c : Commit) (h : WellFormedCommit c) :
    parseBlock (renderBlock c).data = some { c with body := jsTrim c.body } := by
  obtain ⟨⟨h1, h2, h3, h4, h5⟩, _, _⟩ := h
  have hlines : splitOnSep ['\n'] (renderBlock c).data =
      c.hash.data :: c.message.data :: c.author_name.data :: c.author_email.data ::
        c.date.data :: splitOnSep ['\n'] (c.body.data ++ '\n' :: []) := by
    rw [renderBlock_data, splitOnSep_newline_cons h1, splitOnSep_newline_cons h2,
      splitOnSep_newline_cons h3, splitOnSep_newline_cons h4, splitOnSep_newline_cons h5]
  have htail : splitOnSep ['\n'] (c.body.data ++ '\n' :: []) ≠ [] :=
    splitOnSep_ne_nil _ _
  unfold parseBlock
  rw [hlines]
  rw [if_neg]
  · have hbody : jsTrimL (joinSep ['\n']
        ((c.hash.data :: c.message.data :: c.author_name.data :: c.author_email.data ::
          c.date.data :: splitOnSep ['\n'] (c.body.data ++ '\n' :: [])).drop 5)) =
        jsTrimL c.body.data := by
      rw [show (c.hash.data :: c.message.data :: c.author_name.data :: c.author_email.data ::
        c.date.data :: splitOnSep ['\n'] (c.body.data ++ '\n' :: [])).drop 5 =
        splitOnSep ['\n'] (c.body.data ++ '\n' :: []) from rfl]
      rw [joinSep_splitOnSep_newline]
      rw [show c.body.data ++ '\n' :: [] = c.body.data ++ ['\n'] from rfl]
      exact jsTrimL_append_space rfl
    simp only [List.getD, List.getElem?_cons_zero, List.getElem?_cons_succ, Option.getD_some]
    rw [hbody]
    rfl
  · simp only [List.length_cons, not_lt]
    omega

theorem parse_blocks_map : ∀ cs : List Commit, (∀ c ∈ cs, WellFormedCommit c) →
    (cs.map fun c => (renderBlock c).data).filterMap parseBlock =
      cs.map fun c => { c with body := jsTrim c.body } := by
  intro cs
  induction cs with
  | nil => intro _; rfl
  | cons c cs ih =>
    intro hwf
    rw [List.map_cons, List.filterMap_cons,
      parseBlock_renderBlock c (hwf c (List.mem_cons_self c cs)), List.map_cons,
      ih fun c' hc' => hwf c' (List.mem_cons_of_mem _ hc')]

/-- C6: for every list of well-formed synthetic commits (single-line header
fields, no sentinel inside the rendered block, an identifier with visible
content), parsing the blocks joined with the sentinel returns exactly the same
commits in order, with the five header fields preserved verbatim and the body
equal to the remaining lines joined by newline and trimmed (`jsTrim`, the
empty string when absent); and appending a block with fewer than 5 lines is
skipped silently, leaving the parse result unchanged. -/
theorem parser_round_trip :
    (∀ cs : List Commit, (∀ c ∈ cs, WellFormedCommit c) →
      parseGitLog (renderLog cs) = cs.map fun c => { c with body := jsTrim c.body }) ∧
    (∀ (cs : List Commit) (short : List Char), (∀ c ∈ cs, WellFormedCommit c) →
      hasOcc sentinel short = false → (splitOnSep ['\n'] short).length < 5 →
      parseGitLog ⟨(renderLog cs).data ++ (short ++ sentinel)⟩ =
        parseGitLog (renderLog cs)) := by
  have hblockkeep : ∀ (cs : List Commit), (∀ c ∈ cs, WellFormedCommit c) →
      (cs.map fun c => (renderBlock c).data).filter (fun b => !(jsTrimL b).isEmpty) =
        cs.map fun c => (renderBlock c).data := by
    intro cs hwf
    rw [List.filter_eq_self]
    intro b hb
    rw [List.mem_map] at hb
    obtain ⟨c, hc, rfl⟩ := hb
    obtain ⟨_, _, ch, hch, hns⟩ := hwf c hc
    have hmem : ch ∈ (renderBlock c).data := by
      rw [renderBlock_data]
      exact List.mem_append_left _ hch
    have := jsTrimL_ne_nil hmem hns
    simpa [List.isEmpty_iff] using this
  have hsplit0 : ∀ (cs : List Commit), (∀ c ∈ cs, WellFormedCommit c) →
      splitOnSep sentinel (renderLog cs).data =
        (cs.map fun c => (renderBlock c).data) ++ [[]] := by
    intro cs hwf
    have := splitOnSep_renderLog_append cs hwf []
    rwa [List.append_nil] at this
  constructor
  · intro cs hwf
    unfold parseGitLog
    rw [hsplit0 cs hwf, List.filter_append, hblockkeep cs hwf]
    rw [show ([([] : List Char)].filter fun b => !(jsTrimL b).isEmpty) = [] from rfl]
    rw [List.append_nil]
    exact parse_blocks_map cs hwf
  · intro cs short hwf hshort hlines
    unfold parseGitLog
    have hdata : (⟨(renderLog cs).data ++ (short ++ sentinel)⟩ : String).data =
        (renderLog cs).data ++ (short ++ sentinel) := rfl
    rw [hdata, splitOnSep_renderLog_append cs hwf (short ++ sentinel)]
    have hsent : short ++ sentinel = short ++ (sentinel ++ []) := by
      rw [List.append_nil]
    rw [hsent, splitOnSep_append sentinel short [] (by decide)
      (no_early_occurrence hshort)]
    rw [show splitOnSep sentinel [] = [([] : List Char)] from rfl]
    rw [hsplit0 cs hwf]
    rw [List.filter_append, List.filter_append, List.filterMap_append, List.filterMap_append]
    congr 1
    have hpshort : parseBlock short = none := by
      unfold parseBlock
      rw [if_pos hlines]
    by_cases hkeep : (!(jsTrimL short).isEmpty) = true
    · rw [List.filter_cons, if_pos hkeep]
      rw [show (([([] : List Char)] : List (List Char)).filter
          fun b => !(jsTrimL b).isEmpty) = [] from rfl]
      rw [List.filterMap_cons, hpshort]
    · rw [List.filter_cons, if_neg hkeep]

/-- C6 witness: the round trip applied to two concrete well-formed commits,
one with a body needing trimming, and a concrete short block. -/
theorem parser_round_trip_witness :
    parseGitLog (renderLog
        [mkCommit "a1" "feat: one" "US-7\n", mkCommit "b2" "fix: two" ""]) =
      [mkCommit "a1" "feat: one" "US-7", mkCommit "b2" "fix: two" ""] ∧
    parseGitLog ⟨(renderLog [mkCommit "a1" "feat: one" "US-7\n"]).data ++
        ("x\ny\n".data ++ sentinel)⟩ =
      parseGitLog (renderLog [mkCommit "a1" "feat: one" "US-7\n"]) := by
  constructor
  · have := parser_round_trip.1
      [mkCommit "a1" "feat: one" "US-7\n", mkCommit "b2" "fix: two" ""] (by decide)
    rw [this]
    decide
  · exact parser_round_trip.2 [mkCommit "a1" "feat: one" "US-7\n"] "x\ny\n".data
      (by decide) (by decide) (by decide)

end Shipnotes
